import Mathlib

/-!
Shallow embedding of the Lorikeet strain-deconvolution core.

Source files modelled here:
* src/pileup_matrix.rs — the population matrix (PileupContigMatrix), its
  add_contig aggregation, the distance/feature computation inside
  generate_distances (feature vectors, geometric-mean accumulators, the NMF
  rank scan and the posterior-threshold assignment loop) and
  print_variant_stats.
* src/factorization/seeding.rs — the NNDSVD seeding of nonnegative matrix
  factorization.

Rust f32/f64 arithmetic is modelled over ℚ where the code only uses field
operations, and over ℝ where logarithms, exponentials or square roots occur.
HashMap/BTreeMap values are modelled as association lists queried through
mfind; BTreeSet<i64> read-support sets are modelled as Finset ℤ.
-/

namespace Lorikeet

/-- Lookup in an association list; models HashMap/BTreeMap lookup (the first
binding of a key wins, matching the unique-key maps of the source). -/
def mfind {κ α : Type} [DecidableEq κ] : List (κ × α) → κ → Option α
  | [], _ => none
  | (k, v) :: rest, k2 => if k = k2 then some v else mfind rest k2

/-- Models the Rust pattern map.entry(k).or_insert(d) followed by an in-place
update of the entry's value by f: if k is bound its value v becomes f v,
otherwise the binding (k, f d) is appended. Plain or_insert is the case f = id;
HashMap::insert of x is the case f = fun _ => x with d = x. -/
def updAssoc {κ α : Type} [DecidableEq κ] : List (κ × α) → κ → α → (α → α) → List (κ × α)
  | [], k, d, f => [(k, f d)]
  | (k2, v) :: rest, k, d, f =>
    if k2 = k then (k2, f v) :: rest else (k2, v) :: updAssoc rest k d f

/-- Positional read-support set, models BTreeSet<i64>. -/
abbrev ReadSet : Type := Finset ℤ

/-- Models BTreeMap<key, BTreeSet<i64>> at one position (key is a Char for
SNPs, a String for indels). -/
abbrev InnerMap (κ : Type) : Type := List (κ × ReadSet)

/-- Models HashMap<i32 position, BTreeMap<key, BTreeSet<i64>>>. -/
abbrev PosMap (κ : Type) : Type := List (ℤ × InnerMap κ)

/-- Read-set level merge of add_contig (pileup_matrix.rs lines 290-298 and
315-323): if the stored set is empty it is replaced by the incoming set,
otherwise the union is taken. -/
def mergeSet (old new : ReadSet) : ReadSet := if old = ∅ then new else old ∪ new

/-- Per-position inner loop of add_contig: every (key, read_set) binding of the
incoming BTreeMap is pushed through entry/or_insert and mergeSet. -/
def innerMerge {κ : Type} [DecidableEq κ] (b n : InnerMap κ) : InnerMap κ :=
  n.foldl (fun acc e => updAssoc acc e.1 ∅ (fun v => mergeSet v e.2)) b

/-- Position-entry merge of add_contig: an empty stored BTreeMap is replaced
wholesale by the incoming one, otherwise the inner loop runs. -/
def posEntryMerge {κ : Type} [DecidableEq κ] (old new : InnerMap κ) : InnerMap κ :=
  if old.isEmpty then new else innerMerge old new

/-- Contig-level merge of add_contig for snps_map/indels_map (pileup_matrix.rs
lines 279-327): an empty stored map is replaced wholesale by the incoming map,
otherwise each incoming position is merged through posEntryMerge. -/
def posMerge {κ : Type} [DecidableEq κ] (b n : PosMap κ) : PosMap κ :=
  if b.isEmpty then n
  else n.foldl (fun acc e => updAssoc acc e.1 [] (fun v => posEntryMerge v e.2)) b

/-- Scalar-slot write of add_contig (pileup_matrix.rs lines 194-204): the
per-contig vector is created zero-filled with sample_count slots on first sight
and the sample's slot is overwritten. -/
def updScalarVec (m : List (ℤ × List ℚ)) (tid : ℤ) (sampleCount sampleIdx : ℕ)
    (x : ℚ) : List (ℤ × List ℚ) :=
  updAssoc m tid (List.replicate sampleCount 0) (fun v => v.set sampleIdx x)

/-- Three per-contig sum-table rows of one sample: row 0 variant-frequency,
row 1 total-depth, row 2 reference-frequency (contig_sums in add_contig). -/
abbrev SumRows : Type := List ℚ × List ℚ × List ℚ

/-- Inner fold of the per-position loop of add_contig (lines 226-234): the
variant depths are summed while total_depth is overwritten with depth + 1 on
each abundance (assignment, not accumulation, in the source). -/
def posAccum (ab : List (String × ℚ × ℚ)) : ℚ × ℚ :=
  ab.foldl (fun acc e => (acc.1 + e.2.1, e.2.2 + 1)) (0, 0)

/-- Per-position triple written into the sum table (lines 236-245): with
vd = summed variant depth and td = last depth + 1, ref_depth = td - vd is taken
before the variant pseudocount, then variant_depth becomes vd + 1; the stored
values are ((vd+1)/td, td, (td-vd)/td). -/
def posTriple (ab : List (String × ℚ × ℚ)) : ℚ × ℚ × ℚ :=
  (((posAccum ab).1 + 1) / (posAccum ab).2,
   (posAccum ab).2,
   ((posAccum ab).2 - (posAccum ab).1) / (posAccum ab).2)

/-- Writes the values of vals into row at indices 0, 1, 2, ... (the source
indexes contig_sums[r][variant_index] with a running variant_index). -/
def writeRow (row : List ℚ) (vals : List ℚ) : List ℚ :=
  (vals.foldl (fun acc x => (acc.1.set acc.2 x, acc.2 + 1)) (row, 0)).1

/-- Whole-table update for one add_contig call with at least one variant
position: each position's triple is written at its variant ordinal. -/
def contigSumsWrite (old : SumRows) (ab : List (ℤ × List (String × ℚ × ℚ))) : SumRows :=
  (writeRow old.1 ((ab.map (fun p => posTriple p.2)).map (fun t => t.1)),
   writeRow old.2.1 ((ab.map (fun p => posTriple p.2)).map (fun t => t.2.1)),
   writeRow old.2.2 ((ab.map (fun p => posTriple p.2)).map (fun t => t.2.2)))

/-- Fields of PileupMatrix::PileupContigMatrix touched by the claims under
verification (coverages, variances, average_genotypes, target_lengths,
snps_map, indels_map, variant_sums, variant_counts). -/
structure PMatrix : Type where
  coverages : List (ℤ × List ℚ)
  variances : List (ℤ × List ℚ)
  averageGenotypes : List (ℤ × List ℚ)
  targetLengths : List (ℤ × ℚ)
  snpsMap : List (ℤ × PosMap Char)
  indelsMap : List (ℤ × PosMap String)
  variantSums : List (ℕ × List (ℤ × SumRows))
  variantCounts : List (ℕ × List (ℤ × ℕ))

/-- Models PileupMatrix::new_matrix(): every aggregate starts empty. -/
def newMatrix : PMatrix := ⟨[], [], [], [], [], [], [], []⟩

/-- Fields of PileupStats::PileupContigStats consumed by add_contig. -/
structure PileupStatsIn : Type where
  tid : ℤ
  targetLen : ℚ
  coverage : ℚ
  variance : ℚ
  meanGenotypes : ℚ
  variantAbundances : List (ℤ × List (String × ℚ × ℚ))
  totalVariants : ℕ
  nucfrequency : PosMap Char
  indels : PosMap String

/-- Models add_contig (pileup_matrix.rs lines 159-335) for one call merging one
sample's per-contig statistics: scalar slots are overwritten, the sum table and
variant count are written (with the zero-variant fallback row), and the SNP and
indel positional read-support maps are merged. -/
def addContig (m : PMatrix) (st : PileupStatsIn) (sampleCount sampleIdx : ℕ) : PMatrix :=
  { averageGenotypes := updScalarVec m.averageGenotypes st.tid sampleCount sampleIdx st.meanGenotypes
    variances := updScalarVec m.variances st.tid sampleCount sampleIdx st.variance
    coverages := updScalarVec m.coverages st.tid sampleCount sampleIdx st.coverage
    targetLengths := updAssoc m.targetLengths st.tid st.targetLen id
    variantSums :=
      if 0 < st.totalVariants then
        updAssoc m.variantSums sampleIdx []
          (fun inner => updAssoc inner st.tid
            (List.replicate st.totalVariants 0, List.replicate st.totalVariants 0,
             List.replicate st.totalVariants 0)
            (fun old => contigSumsWrite old st.variantAbundances))
      else
        updAssoc m.variantSums sampleIdx []
          (fun inner => updAssoc inner st.tid ([0], [0], [0]) id)
    variantCounts :=
      if 0 < st.totalVariants then
        updAssoc m.variantCounts sampleIdx []
          (fun inner => updAssoc inner st.tid st.variantAbundances.length
            (fun _ => st.variantAbundances.length))
      else
        updAssoc m.variantCounts sampleIdx []
          (fun inner => updAssoc inner st.tid 0 (fun _ => 0))
    indelsMap := updAssoc m.indelsMap st.tid [] (fun b => posMerge b st.indels)
    snpsMap := updAssoc m.snpsMap st.tid [] (fun b => posMerge b st.nucfrequency) }

/-- Sum-table rows recorded for (sample, contig). -/
def sumsAt (m : PMatrix) (s : ℕ) (tid : ℤ) : Option SumRows :=
  (mfind m.variantSums s).bind (fun inner => mfind inner tid)

/-- Variant count recorded for (sample, contig). -/
def countAt (m : PMatrix) (s : ℕ) (tid : ℤ) : Option ℕ :=
  (mfind m.variantCounts s).bind (fun inner => mfind inner tid)

/-- Read-support set stored at (position, key) of a positional map. -/
def lookupSet {κ : Type} [DecidableEq κ] (m : PosMap κ) (p : ℤ) (k : κ) : Option ReadSet :=
  match mfind m p with
  | none => none
  | some im => mfind im k

/-- Read-support set stored at (contig, position, key). -/
def lookupSet3 {κ : Type} [DecidableEq κ] (m : List (ℤ × PosMap κ)) (tid p : ℤ)
    (k : κ) : Option ReadSet :=
  match mfind m tid with
  | none => none
  | some pm => lookupSet pm p k

/-- Per-variant feature-vector loop of generate_distances (pileup_matrix.rs
lines 389-414): iterating the per-sample (count, depth) pairs in sample order,
a sample with positive count pushes depth+1 and count+1, any other sample
pushes only the frequency pseudocount 1; the result is (depths, freqs). -/
def buildFeature : List (ℚ × ℚ) → List ℚ × List ℚ
  | [] => ([], [])
  | (v, d) :: rest =>
    if 0 < v then ((d + 1) :: (buildFeature rest).1, (v + 1) :: (buildFeature rest).2)
    else ((buildFeature rest).1, 1 :: (buildFeature rest).2)

/-- Canonical variant feature list built by generate_distances (lines 371-429):
for every contig, position and variant whose key does not contain the character
R, the tuple (position, key, (depths, freqs), contig) is pushed. -/
def variantInfoAll (table : List (ℤ × List (ℤ × List (String × List (ℚ × ℚ))))) :
    List (ℤ × String × (List ℚ × List ℚ) × ℤ) :=
  table.flatMap (fun tc =>
    tc.2.flatMap (fun pv =>
      ((pv.2.filter (fun e => !('R' ∈ e.1.data))).map
        (fun e => (pv.1, e.1, buildFeature e.2, tc.1)))))

/-- Modelled from the spec: the VariantKey encoding lives in the upstream
pileup code, which is not part of this repository snapshot. The spec's data
model lists substitution, insertion, deletion and ambiguous-run keys (strings
over the nucleotide alphabet A, C, G, T, N) plus a reference placeholder, which
the generate_distances filter identifies with the key "R". -/
def refPlaceholder : String := "R"

/-- Modelled from the spec: a well-formed VariantKey is either the reference
placeholder or a nucleotide string over A, C, G, T, N. -/
def specVariantKey (s : String) : Prop :=
  s = refPlaceholder ∨ ∀ c ∈ s.data, c = 'A' ∨ c = 'C' ∨ c = 'G' ∨ c = 'T' ∨ c = 'N'

/-- Per-sample log-sum accumulator slot of generate_distances for the variant
counts: the slot starts at 1.0 (lines 360-363) and, for every variant where the
sample's count is positive, ln(count + 1) is added (line 405). The input lists
this sample's (count, depth) pair for every variant in the feature list. -/
noncomputable def sampleLogSumVar (vals : List (ℚ × ℚ)) : ℝ :=
  1 + ((vals.filter (fun p => 0 < p.1)).map (fun p => Real.log ((p.1 : ℝ) + 1))).sum

/-- Per-sample log-sum accumulator slot for the depths: starts at 1.0 and adds
ln(depth + 1) for every variant where the sample's count is positive. -/
noncomputable def sampleLogSumDep (vals : List (ℚ × ℚ)) : ℝ :=
  1 + ((vals.filter (fun p => 0 < p.1)).map (fun p => Real.log ((p.2 : ℝ) + 1))).sum

/-- Geometric-mean conversion of generate_distances (lines 434-440): each
accumulator slot is divided by the total variant count and exponentiated. -/
noncomputable def geomMeanOf (acc : ℝ) (totalVariants : ℕ) : ℝ :=
  Real.exp (acc / totalVariants)

/-- Rank-selection loop of generate_distances (lines 563-577) over the indexed
residuals: state is (rank index, best_rank, best_rss) starting at (0, 0, 0);
the first branch seeds the best with the first scanned rank, the second updates
it whenever the residual is at most the current best, and otherwise the scan
breaks. -/
def rankScanGo (minRank : ℕ) : List ℚ → ℕ → ℕ → ℚ → ℕ × ℚ
  | [], _, bestRank, bestRss => (bestRank, bestRss)
  | rss :: rest, rank, bestRank, bestRss =>
    if bestRank = 0 ∧ bestRss = 0 ∧ rank = 0 then
      rankScanGo minRank rest (rank + 1) (rank + minRank + 1) rss
    else if rss ≤ bestRss then
      rankScanGo minRank rest (rank + 1) (rank + minRank + 1) rss
    else (bestRank, bestRss)

/-- Rank selection over the whole residual vector: returns (best_rank,
best_rss); best_rank is reported as rank index + min_rank + 1, exactly the rank
argument later passed to the final factorization run. -/
def rankScan (minRank : ℕ) (xs : List ℚ) : ℕ × ℚ := rankScanGo minRank xs 0 0 0

/-- Models min_rank = cmp::min(4, variant count) (line 507). -/
def minRankOf (n : ℕ) : ℕ := min 4 n

/-- Models max_rank = cmp::min(25, variant count) (line 506). -/
def maxRankOf (n : ℕ) : ℕ := min 25 n

/-- Ranks submitted to the exploratory factorization scan: the loop runs over
min_rank..max_rank (half-open) and passes rank + 1 as the rank argument of the
external factorization command (lines 517-527). -/
def scannedRanks (n : ℕ) : List ℕ :=
  (List.range' (minRankOf n) (maxRankOf n - minRankOf n)).map (fun r => r + 1)

/-- Number of distinct cluster ids in the final factorization output
(unique_ranks, lines 620-625). -/
def uniqueCount (preds : List (ℤ × ℚ)) : ℕ := (preds.map Prod.fst).dedup.length

/-- Assignment loop of generate_distances (lines 641-691) over the prediction
rows (reported cluster, posterior), carrying the running row index: a row with
posterior at least the threshold is recorded exclusively for its reported
cluster, any other row index goes to the shared ambiguous bucket. -/
def assignGo (thresh : ℚ) : ℕ → List (ℤ × ℚ) → List (ℕ × ℤ) × List ℕ
  | _, [] => ([], [])
  | i, (c, p) :: rest =>
    if thresh ≤ p then
      ((i, c) :: (assignGo thresh (i + 1) rest).1, (assignGo thresh (i + 1) rest).2)
    else
      ((assignGo thresh (i + 1) rest).1, i :: (assignGo thresh (i + 1) rest).2)

/-- Whole assignment pass: the threshold is 1 / number of distinct clusters
(line 637) and rows are scanned from index 0. -/
def assignRows (preds : List (ℤ × ℚ)) : List (ℕ × ℤ) × List ℕ :=
  assignGo (1 / (uniqueCount preds : ℚ)) 0 preds

/-- Models the pos helper of seeding.rs (lines 126-136): the mask is 1 where
the entry is nonnegative and 0 elsewhere, multiplied back into the vector. -/
noncomputable def posPart {n : ℕ} (u : Fin n → ℝ) : Fin n → ℝ :=
  fun i => (if 0 ≤ u i then (1 : ℝ) else 0) * u i

/-- Models the neg helper of seeding.rs (lines 138-148): the mask is 1 where
the entry is negative and 0 elsewhere, multiplied into the negated vector. -/
noncomputable def negPart {n : ℕ} (u : Fin n → ℝ) : Fin n → ℝ :=
  fun i => (if u i < 0 then (1 : ℝ) else 0) * (-u i)

/-- Euclidean vector norm used by seeding.rs through ndarray_linalg's norm. -/
noncomputable def vecNorm {n : ℕ} (u : Fin n → ℝ) : ℝ :=
  Real.sqrt (∑ i, (u i) ^ 2)

/-- Final clamp of Seed::initialize (seeding.rs lines 98-112): every entry
below exp(1)^(-11) is set to exactly zero. -/
noncomputable def clampSmall (x : ℝ) : ℝ :=
  if x < (Real.exp 1) ^ (-11 : ℝ) then 0 else x

/-- Models the W factor produced by Seed::Nndsvd's initialize on the singular
triplets (u columns, singular values s, right singular vectors e): column 0 is
sqrt(s 0) times the absolute first left singular vector; a later column j picks
the positive pairing when the positive energy term is at least the negative one
(ties favor positive) and divides sqrt(s j * term) elementwise by the chosen
part of u's column j scaled by its own norm; the clamp is applied last. -/
noncomputable def nndsvdW {mr nc r : ℕ} (u : Fin mr → Fin r → ℝ) (s : Fin r → ℝ)
    (e : Fin nc → Fin r → ℝ) : Fin mr → Fin r → ℝ :=
  fun i j =>
    clampSmall
      (if (j : ℕ) = 0 then Real.sqrt (s j) * |u i j|
       else
         if vecNorm (negPart (fun t => u t j)) * vecNorm (negPart (fun t => e t j)) ≤
             vecNorm (posPart (fun t => u t j)) * vecNorm (posPart (fun t => e t j)) then
           Real.sqrt (s j *
               (vecNorm (posPart (fun t => u t j)) * vecNorm (posPart (fun t => e t j)))) /
             (posPart (fun t => u t j) i * vecNorm (posPart (fun t => u t j)))
         else
           Real.sqrt (s j *
               (vecNorm (negPart (fun t => u t j)) * vecNorm (negPart (fun t => e t j)))) /
             (negPart (fun t => u t j) i * vecNorm (negPart (fun t => u t j))))

/-- Models the H factor produced by Seed::Nndsvd's initialize, mirroring
nndsvdW on the right singular vectors. -/
noncomputable def nndsvdH {mr nc r : ℕ} (u : Fin mr → Fin r → ℝ) (s : Fin r → ℝ)
    (e : Fin nc → Fin r → ℝ) : Fin r → Fin nc → ℝ :=
  fun j i =>
    clampSmall
      (if (j : ℕ) = 0 then Real.sqrt (s j) * |e i j|
       else
         if vecNorm (negPart (fun t => u t j)) * vecNorm (negPart (fun t => e t j)) ≤
             vecNorm (posPart (fun t => u t j)) * vecNorm (posPart (fun t => e t j)) then
           Real.sqrt (s j *
               (vecNorm (posPart (fun t => u t j)) * vecNorm (posPart (fun t => e t j)))) /
             (posPart (fun t => e t j) i * vecNorm (posPart (fun t => e t j)))
         else
           Real.sqrt (s j *
               (vecNorm (negPart (fun t => u t j)) * vecNorm (negPart (fun t => e t j)))) /
             (negPart (fun t => e t j) i * vecNorm (negPart (fun t => e t j))))

/-- Output trace element of print_variant_stats: a literal text piece, a
numeric field carried exactly as the rational it is computed from, a numeric
field printed as the square root of the carried radicand (the two powf(1/2)
standard deviations), or the newline emitted by writeln!. -/
inductive Chunk : Type where
  | text (s : String)
  | num (q : ℚ)
  | sqrtOf (q : ℚ)
  | newline
deriving DecidableEq

/-- Header of print_variant_stats (pileup_matrix.rs lines 990-998):
contigName and contigLen, six column names per registered sample, then one
newline. -/
def headerChunks (sampleNames : List String) : List Chunk :=
  [Chunk.text "contigName\tcontigLen"] ++
    (sampleNames.map (fun nm =>
      Chunk.text ("\t" ++ nm ++ ".subsPer10kb\t" ++ nm ++ ".variants\t" ++ nm ++
        ".meanRefAbd\t" ++ nm ++ ".refStdDev\t" ++ nm ++ ".meanVarAbd\t" ++ nm ++
        ".varStdDev"))) ++
    [Chunk.newline]

/-- Chunks written for one sample of one contig (lines 1002-1040): with a
positive variant count the six statistics are computed from the sum-table rows
and emitted through writeln! (so a newline follows every sample's six fields);
otherwise six zeros are emitted, also through writeln!. -/
def sampleStatsChunks (contigLen : ℚ) (totalVariants : ℕ) (sums : SumRows) : List Chunk :=
  if 0 < totalVariants then
    [Chunk.text "\t",
     Chunk.num ((totalVariants : ℚ) / (contigLen / 10000)),
     Chunk.text "\t",
     Chunk.num (totalVariants : ℚ),
     Chunk.text "\t",
     Chunk.num (sums.2.2.sum / (sums.2.1.length : ℚ)),
     Chunk.text "\t",
     Chunk.sqrtOf
       (((sums.2.2.map (fun x => (x - sums.2.2.sum / (sums.2.1.length : ℚ)) ^ 2)).sum) /
         (sums.2.1.length : ℚ)),
     Chunk.text "\t",
     Chunk.num (sums.1.sum / (sums.2.1.length : ℚ)),
     Chunk.text "\t",
     Chunk.sqrtOf
       (((sums.1.map (fun x => (x - sums.1.sum / (sums.2.1.length : ℚ)) ^ 2)).sum) /
         (sums.2.1.length : ℚ)),
     Chunk.newline]
  else
    [Chunk.text "\t", Chunk.num 0, Chunk.text "\t", Chunk.num 0, Chunk.text "\t",
     Chunk.num 0, Chunk.text "\t", Chunk.num 0, Chunk.text "\t", Chunk.num 0,
     Chunk.text "\t", Chunk.num 0, Chunk.newline]

/-- Chunks written for one contig (lines 999-1041): the contig name and length
without a trailing newline, then each sample's statistics block. -/
def contigRowChunks (nameLen : String × ℚ) (perSample : List (ℕ × SumRows)) : List Chunk :=
  [Chunk.text nameLen.1, Chunk.text "\t", Chunk.num nameLen.2] ++
    perSample.flatMap (fun d => sampleStatsChunks nameLen.2 d.1 d.2)

/-- Full output trace of print_variant_stats: the header, then for every contig
its name/length followed by one statistics block per registered sample (the
per-sample data is consumed in registration order; lookups into variant_counts
and variant_sums are modelled by pairing each sample name with its data). -/
def printVariantStats (sampleNames : List String)
    (contigs : List ((String × ℚ) × List (ℕ × SumRows))) : List Chunk :=
  headerChunks sampleNames ++
    contigs.flatMap (fun c => contigRowChunks c.1 ((sampleNames.zip c.2).map Prod.snd))

/-- Number of newline chunks, i.e. number of output lines terminated. -/
def newlineCount (cs : List Chunk) : ℕ :=
  (cs.filter (fun c => c = Chunk.newline)).length

/-- Statistics of sample 0 in the end-to-end scenario: one contig of length 20,
one variant "A" at position 10 with (count, depth) = (5, 10). -/
def c1Stats0 : PileupStatsIn := ⟨0, 20, 0, 0, 0, [(10, [("A", 5, 10)])], 1, [], []⟩

/-- Statistics of sample 1 in the end-to-end scenario: (count, depth) = (0, 8). -/
def c1Stats1 : PileupStatsIn := ⟨0, 20, 0, 0, 0, [(10, [("A", 0, 8)])], 1, [], []⟩

/-- Statistics of sample 2 in the end-to-end scenario: (count, depth) = (9, 9). -/
def c1Stats2 : PileupStatsIn := ⟨0, 20, 0, 0, 0, [(10, [("A", 9, 9)])], 1, [], []⟩

/-- Population matrix after the three add_contig calls of the end-to-end
scenario (3 registered samples, one call per sample). -/
def c1Matrix : PMatrix :=
  addContig (addContig (addContig newMatrix c1Stats0 3 0) c1Stats1 3 1) c1Stats2 3 2

/-- Sample names of the two-sample print_variant_stats scenario. -/
def c9Names : List String := ["s1", "s2"]

/-- Contig table of the two-sample print_variant_stats scenario: one contig of
length 20 with one recorded variant per sample. -/
def c9Contigs : List ((String × ℚ) × List (ℕ × SumRows)) :=
  [(("contig1", 20), [(1, ([6/11], [11], [6/11])), (1, ([1/9], [9], [1]))])]

/-- Variant table of the C8 witness scenario: one contig, one position holding
a substitution key "A" and the reference placeholder "R". -/
def c8Table : List (ℤ × List (ℤ × List (String × List (ℚ × ℚ)))) :=
  [(0, [(10, [("A", [(5, 10)]), ("R", [(6, 10)])])])]

/-- Statistics of the C10 witness scenario: contig 0 with one SNP and one indel
read-support entry and scalar slots (1, 2, 3). -/
def c10Stats : PileupStatsIn :=
  ⟨0, 20, 1, 2, 3, [], 0, [(4, [('A', {5})])], [(4, [("AT", {7})])]⟩

/-- Second-call statistics of the C10 witness scenario: same contig and sets,
different scalar slots (7, 8, 9). -/
def c10Stats2 : PileupStatsIn :=
  ⟨0, 20, 7, 8, 9, [], 0, [(4, [('A', {5})])], [(4, [("AT", {7})])]⟩

/-! ## Theorems -/

end Lorikeet

namespace Lorikeet

/-- Claim C1 (counterexample): in the end-to-end scenario (3 samples, one
contig of length 20, variant "A" at position 10 with per-sample (count, depth)
of (5,10), (0,8), (9,9)) the reference-frequency row across samples is
[6/11, 9/9, 1/10], not the claimed [5/11, 8/9, 0/10]: add_contig computes
ref_depth = (depth + 1) - count, subtracting the raw variant depth from the
pseudo-counted total before the variant pseudocount is added. -/
theorem c1_refRow_counterexample :
    ((sumsAt c1Matrix 0 0).map (fun r => r.2.2),
     (sumsAt c1Matrix 1 0).map (fun r => r.2.2),
     (sumsAt c1Matrix 2 0).map (fun r => r.2.2)) =
      (some [6/11], some [9/9], some [1/10]) ∧
    ((sumsAt c1Matrix 0 0).map (fun r => r.2.2),
     (sumsAt c1Matrix 1 0).map (fun r => r.2.2),
     (sumsAt c1Matrix 2 0).map (fun r => r.2.2)) ≠
      (some [5/11], some [8/9], some [0/10]) := by
  constructor <;>
    norm_num [sumsAt, c1Matrix, addContig, newMatrix, c1Stats0, c1Stats1, c1Stats2,
      mfind, updAssoc, contigSumsWrite, writeRow, posTriple, posAccum, updScalarVec]

/-- Claim C1 (amended): after one add_contig call per sample, the per-sample
per-contig sum tables hold variant-frequency row [6/11, 1/9, 10/10],
reference-frequency row [6/11, 9/9, 1/10] (ref_depth is taken from the
pseudo-counted total depth before the variant pseudocount), and a recorded
variant count of 1 for each of the three samples. -/
theorem c1_sum_tables :
    (sumsAt c1Matrix 0 0).map (fun r => r.1) = some [6/11] ∧
    (sumsAt c1Matrix 1 0).map (fun r => r.1) = some [1/9] ∧
    (sumsAt c1Matrix 2 0).map (fun r => r.1) = some [10/10] ∧
    (sumsAt c1Matrix 0 0).map (fun r => r.2.2) = some [6/11] ∧
    (sumsAt c1Matrix 1 0).map (fun r => r.2.2) = some [9/9] ∧
    (sumsAt c1Matrix 2 0).map (fun r => r.2.2) = some [1/10] ∧
    countAt c1Matrix 0 0 = some 1 ∧ countAt c1Matrix 1 0 = some 1 ∧
    countAt c1Matrix 2 0 = some 1 := by
  norm_num [sumsAt, countAt, c1Matrix, addContig, newMatrix, c1Stats0, c1Stats1,
    c1Stats2, mfind, updAssoc, contigSumsWrite, writeRow, posTriple, posAccum,
    updScalarVec]

/-- Claim C4 (code evaluated at the failing input): a sample whose (count,
depth) pairs are (0,5) and (0,7) over a run with 2 total variants contributes
no pseudo-counted value to the log-sum accumulator (so every contributing value
equals 1 vacuously), yet the accumulator starts at 1.0 rather than 0, so the
sample's geometric mean is exp((1 + 0) / 2) = exp(1/2) and not 1 as the claim
requires. -/
theorem c4_geom_mean_not_one :
    (([((0 : ℚ), 5), (0, 7)]).filter (fun p => 0 < p.1)) = [] ∧
    sampleLogSumVar [(0, 5), (0, 7)] = 1 ∧
    geomMeanOf (sampleLogSumVar [(0, 5), (0, 7)]) 2 = Real.exp (1 / 2) ∧
    geomMeanOf (sampleLogSumVar [(0, 5), (0, 7)]) 2 ≠ 1 := by
  have hfilter : (([((0 : ℚ), 5), (0, 7)]).filter (fun p => 0 < p.1)) = [] := by
    norm_num [List.filter]
  have hacc : sampleLogSumVar [(0, 5), (0, 7)] = 1 := by
    norm_num [sampleLogSumVar, List.filter]
  have hgm : geomMeanOf (sampleLogSumVar [(0, 5), (0, 7)]) 2 = Real.exp (1 / 2) := by
    rw [geomMeanOf, hacc]
    norm_num
  refine ⟨hfilter, hacc, hgm, ?_⟩
  rw [hgm, Ne, Real.exp_eq_one_iff]
  norm_num

/-- Claim C5 (counterexample): with one registered sample whose (count, depth)
pair is (0, 8) at a variant, the frequency vector has length 1 but the depth
vector is empty — a sample with no observation is omitted from the depth
vector, not pseudo-counted into it. -/
theorem c5_depth_omitted :
    (buildFeature [((0 : ℚ), 8)]).2.length = 1 ∧
    (buildFeature [((0 : ℚ), 8)]).1.length ≠ 1 := by
  norm_num [buildFeature]

/-- Claim C5 (amended): for every variant tuple, the frequency vector has one
entry per registered sample — count + 1 for an observed sample and the
pseudocount 1 otherwise — while the depth vector holds depth + 1 only for
samples with a positive count and omits the rest. -/
theorem c5_feature_vectors (ab : List (ℚ × ℚ)) :
    (buildFeature ab).2.length = ab.length ∧
    (buildFeature ab).2 = ab.map (fun p => if 0 < p.1 then p.1 + 1 else 1) ∧
    (buildFeature ab).1 = (ab.filter (fun p => 0 < p.1)).map (fun p => p.2 + 1) := by
  induction ab with
  | nil => simp [buildFeature]
  | cons hd tl ih =>
    obtain ⟨v, d⟩ := hd
    by_cases h : 0 < v
    · simp [buildFeature, h, ih.1, ih.2.1, ih.2.2, List.filter_cons]
    · simp [buildFeature, h, ih.1, ih.2.1, ih.2.2, List.filter_cons]

/-- Claim C6 (counterexample): with 10 variants the claimed candidate interval
[min(4,10), min(25,10)] contains the rank 4, but 4 is not among the ranks
submitted to the exploratory scan — the loop passes rank + 1 for loop variable
rank in min_rank..max_rank, so the submitted set is [5, 10]. -/
theorem c6_rank_four_not_scanned :
    4 ∉ scannedRanks 10 ∧ minRankOf 10 ≤ 4 ∧ 4 ≤ maxRankOf 10 := by decide

/-- Claim C6 (amended): for every variant count n ≥ 2, the set of ranks
submitted to the exploratory factorization scan is exactly the integer interval
[min(4,n) + 1, min(25,n)] (empty when n ≤ 4). -/
theorem c6_scanned_ranks (n : ℕ) (h : 2 ≤ n) (r : ℕ) :
    r ∈ scannedRanks n ↔ minRankOf n + 1 ≤ r ∧ r ≤ maxRankOf n := by
  simp only [scannedRanks, List.mem_map, List.mem_range'_1, minRankOf, maxRankOf]
  constructor
  · rintro ⟨x, hx, rfl⟩
    omega
  · rintro ⟨h1, h2⟩
    exact ⟨r - 1, by omega, by omega⟩

/-- Witness for c6_scanned_ranks at n = 10, r = 7. -/
theorem c6_scanned_ranks_witness :
    2 ≤ 10 ∧ (7 ∈ scannedRanks 10 ↔ minRankOf 10 + 1 ≤ 7 ∧ 7 ≤ maxRankOf 10) :=
  ⟨by norm_num, c6_scanned_ranks 10 (by norm_num) 7⟩

/-- Claim C9 (code evaluated at the failing input): with two registered samples
and one contig, print_variant_stats emits the documented header line but then
three newline-terminated lines in total — writeln! runs once per sample inside
the per-contig loop, so each contig produces one line per sample instead of the
single row per contig the claim requires (header 1 + contigs 1 = 2 lines). -/
theorem c9_row_per_sample_not_per_contig :
    headerChunks c9Names =
      [Chunk.text "contigName\tcontigLen",
       Chunk.text
         "\ts1.subsPer10kb\ts1.variants\ts1.meanRefAbd\ts1.refStdDev\ts1.meanVarAbd\ts1.varStdDev",
       Chunk.text
         "\ts2.subsPer10kb\ts2.variants\ts2.meanRefAbd\ts2.refStdDev\ts2.meanVarAbd\ts2.varStdDev",
       Chunk.newline] ∧
    newlineCount (headerChunks c9Names) = 1 ∧
    newlineCount (printVariantStats c9Names c9Contigs) = 3 ∧
    (3 : ℕ) ≠ 1 + c9Contigs.length := by
  refine ⟨by decide, by decide, by decide, by decide⟩


/-- Helper for the rank-selection scan: once at least one residual has been
consumed (rank index at least 1), a strictly decreasing run whose head is at
most the current best residual is consumed entirely, the best being updated at
every step. -/
theorem rankScanGo_descent (minRank : ℕ) (ds : List ℚ) :
    ∀ (d : ℚ) (rest : List ℚ) (rank bRank : ℕ) (best : ℚ), 1 ≤ rank →
      List.Chain' (· > ·) (d :: ds) → d ≤ best →
      rankScanGo minRank ((d :: ds) ++ rest) rank bRank best =
        rankScanGo minRank rest (rank + ds.length + 1) (rank + ds.length + minRank + 1)
          ((d :: ds).getLast (List.cons_ne_nil d ds)) := by
  induction ds with
  | nil =>
    intro d rest rank bRank best hrank _ hle
    have hne : ¬(bRank = 0 ∧ best = 0 ∧ rank = 0) := fun h => absurd h.2.2 (by omega)
    simp only [List.cons_append, List.nil_append, rankScanGo]
    rw [if_neg hne, if_pos hle]
    simp [List.getLast_singleton]
  | cons e ds2 ih =>
    intro d rest rank bRank best hrank hchain hle
    have hde : d > e := (List.chain'_cons.mp hchain).1
    have hchain2 : List.Chain' (· > ·) (e :: ds2) := (List.chain'_cons.mp hchain).2
    have hne : ¬(bRank = 0 ∧ best = 0 ∧ rank = 0) := fun h => absurd h.2.2 (by omega)
    have step : rankScanGo minRank ((d :: e :: ds2) ++ rest) rank bRank best =
        rankScanGo minRank ((e :: ds2) ++ rest) (rank + 1) (rank + minRank + 1) d := by
      simp only [List.cons_append, rankScanGo]
      rw [if_neg hne, if_pos hle]
    rw [step, ih e rest (rank + 1) (rank + minRank + 1) d (by omega) hchain2 hde.le]
    rw [List.getLast_cons (List.cons_ne_nil e ds2)]
    simp only [List.length_cons]
    ring_nf

/-- Claim C3: over a residual series that strictly decreases along a nonempty
run and then rises (whatever follows afterwards, including strictly smaller
residuals), the rank-selection loop seeds the best with the first scanned rank,
updates it while residuals do not exceed the current best, breaks at the first
increase, and hence returns the rank at the first local minimum together with
that minimal residual; a residual equal to the current best still updates the
best (the tie conjunct). -/
theorem c3_rank_scan_first_local_min (minRank : ℕ) (down : List ℚ) (u : ℚ)
    (rest : List ℚ) (hd : down ≠ []) (hdec : List.Chain' (· > ·) down)
    (hu : down.getLast hd < u) :
    rankScan minRank (down ++ u :: rest) = (down.length + minRank, down.getLast hd) ∧
    ∀ a : ℚ, rankScan minRank [a, a] = (minRank + 2, a) := by
  constructor
  · cases down with
    | nil => exact absurd rfl hd
    | cons d ds =>
      unfold rankScan
      have h0 : rankScanGo minRank ((d :: ds) ++ u :: rest) 0 0 0 =
          rankScanGo minRank (ds ++ u :: rest) 1 (minRank + 1) d := by
        simp only [List.cons_append, rankScanGo]
        rw [if_pos (show _ ∧ _ ∧ _ by simp)]
        norm_num
      cases ds with
      | nil =>
        rw [h0]
        have hne : ¬((minRank + 1 : ℕ) = 0 ∧ d = 0 ∧ (1 : ℕ) = 0) :=
          fun h => absurd h.2.2 (by omega)
        have hlast : ([d].getLast (List.cons_ne_nil d [])) = d := List.getLast_singleton d _
        have hnle : ¬ u ≤ d := not_le.mpr (by simpa [hlast] using hu)
        simp only [List.nil_append, rankScanGo]
        rw [if_neg hne, if_neg hnle]
        simp [hlast, Nat.add_comm]
      | cons e ds2 =>
        have hde : d > e := (List.chain'_cons.mp hdec).1
        have hchain2 : List.Chain' (· > ·) (e :: ds2) := (List.chain'_cons.mp hdec).2
        rw [h0,
          rankScanGo_descent minRank ds2 e (u :: rest) 1 (minRank + 1) d (le_refl 1)
            hchain2 hde.le]
        have hlast : (d :: e :: ds2).getLast hd = (e :: ds2).getLast (List.cons_ne_nil e ds2) :=
          List.getLast_cons (List.cons_ne_nil e ds2)
        have hne : ¬((1 + ds2.length + minRank + 1 : ℕ) = 0 ∧
            (e :: ds2).getLast (List.cons_ne_nil e ds2) = 0 ∧ (1 + ds2.length + 1 : ℕ) = 0) :=
          fun h => absurd h.2.2 (by omega)
        have hnle : ¬ u ≤ (e :: ds2).getLast (List.cons_ne_nil e ds2) :=
          not_le.mpr (by rw [hlast] at hu; exact hu)
        simp only [rankScanGo]
        rw [if_neg hne, if_neg hnle, hlast]
        simp only [List.length_cons, Prod.mk.injEq]
        exact ⟨by omega, by simp⟩
  · intro a
    unfold rankScan
    have h0 : rankScanGo minRank [a, a] 0 0 0 =
        rankScanGo minRank [a] 1 (minRank + 1) a := by
      simp only [rankScanGo]
      rw [if_pos (show _ ∧ _ ∧ _ by simp)]
      norm_num
    have hne : ¬((minRank + 1 : ℕ) = 0 ∧ a = 0 ∧ (1 : ℕ) = 0) :=
      fun h => absurd h.2.2 (by omega)
    rw [h0]
    simp only [rankScanGo]
    rw [if_neg hne, if_pos (le_refl a)]
    simp only [rankScanGo, Prod.mk.injEq]
    exact ⟨by omega, by simp⟩

/-- Witness for c3_rank_scan_first_local_min: residuals [3, 2, 1, 5, 0] with
min_rank 3 — the scan selects rank 6 (index 2, the first local minimum, as rank
index + min_rank + 1) with residual 1, despite the smaller residual 0 later. -/
theorem c3_rank_scan_witness :
    (([(3 : ℚ), 2, 1] : List ℚ) ≠ [] ∧ List.Chain' (· > ·) [(3 : ℚ), 2, 1] ∧
      ([(3 : ℚ), 2, 1].getLast (by simp)) < 5) ∧
    rankScan 3 ([(3 : ℚ), 2, 1] ++ 5 :: [0]) = (6, 1) := by
  have hd : ([(3 : ℚ), 2, 1] : List ℚ) ≠ [] := by simp
  have hdec : List.Chain' (· > ·) [(3 : ℚ), 2, 1] := by norm_num [List.chain'_cons]
  have hlast : ([(3 : ℚ), 2, 1].getLast hd) = 1 := rfl
  have hu : ([(3 : ℚ), 2, 1].getLast hd) < 5 := by rw [hlast]; norm_num
  refine ⟨⟨hd, hdec, hu⟩, ?_⟩
  have h := (c3_rank_scan_first_local_min 3 [3, 2, 1] 5 [0] hd hdec hu).1
  rw [hlast] at h
  simpa using h


/-- Entries of the pos helper are nonnegative. -/
theorem posPart_nonneg {n : ℕ} (u : Fin n → ℝ) (i : Fin n) : 0 ≤ posPart u i := by
  unfold posPart
  split_ifs with h
  · simpa using h
  · simp

/-- Entries of the neg helper are nonnegative. -/
theorem negPart_nonneg {n : ℕ} (u : Fin n → ℝ) (i : Fin n) : 0 ≤ negPart u i := by
  unfold negPart
  split_ifs with h
  · simp only [one_mul]
    linarith
  · simp

/-- Vector norms are nonnegative. -/
theorem vecNorm_nonneg {n : ℕ} (u : Fin n → ℝ) : 0 ≤ vecNorm u := Real.sqrt_nonneg _

/-- Clamping a nonnegative entry keeps it nonnegative. -/
theorem clampSmall_nonneg (x : ℝ) (hx : 0 ≤ x) : 0 ≤ clampSmall x := by
  unfold clampSmall
  split_ifs
  · exact le_refl 0
  · exact hx

/-- Claim C2: for every entrywise-nonnegative input matrix V and every rank r
with 0 < r ≤ min(rows, cols), Seed::Nndsvd's initialize returns factors W
(rows × r, here a function on Fin mr × Fin r) and H (r × cols) every entry of
which is nonnegative — whatever singular triplets (u, s, e) the SVD subroutine
supplies: column 0 multiplies square roots by absolute values, later columns
divide a square root by a product of a pos/neg part entry and a norm (all
nonnegative), and the final clamp maps small entries to exactly 0. -/
theorem c2_nndsvd_initialize_nonneg {mr nc r : ℕ} (V : Fin mr → Fin nc → ℝ)
    (u : Fin mr → Fin r → ℝ) (s : Fin r → ℝ) (e : Fin nc → Fin r → ℝ)
    (hV : ∀ i j, 0 ≤ V i j) (hr : 0 < r) (hrank : r ≤ min mr nc) :
    (∀ i j, 0 ≤ nndsvdW u s e i j) ∧ (∀ j i, 0 ≤ nndsvdH u s e j i) := by
  constructor
  · intro i j
    unfold nndsvdW
    apply clampSmall_nonneg
    split_ifs with h1 h2
    · exact mul_nonneg (Real.sqrt_nonneg _) (abs_nonneg _)
    · exact div_nonneg (Real.sqrt_nonneg _)
        (mul_nonneg (posPart_nonneg _ _) (vecNorm_nonneg _))
    · exact div_nonneg (Real.sqrt_nonneg _)
        (mul_nonneg (negPart_nonneg _ _) (vecNorm_nonneg _))
  · intro j i
    unfold nndsvdH
    apply clampSmall_nonneg
    split_ifs with h1 h2
    · exact mul_nonneg (Real.sqrt_nonneg _) (abs_nonneg _)
    · exact div_nonneg (Real.sqrt_nonneg _)
        (mul_nonneg (posPart_nonneg _ _) (vecNorm_nonneg _))
    · exact div_nonneg (Real.sqrt_nonneg _)
        (mul_nonneg (negPart_nonneg _ _) (vecNorm_nonneg _))

/-- Witness for c2_nndsvd_initialize_nonneg: the 1 × 1 zero matrix with rank 1
and zero singular triplets. -/
theorem c2_nndsvd_witness :
    ((∀ i j : Fin 1, (0 : ℝ) ≤ (fun (_ : Fin 1) (_ : Fin 1) => (0 : ℝ)) i j) ∧
      0 < 1 ∧ 1 ≤ min 1 1) ∧
    ∀ i j : Fin 1,
      0 ≤ nndsvdW (fun (_ : Fin 1) (_ : Fin 1) => (0 : ℝ)) (fun _ => 0)
        (fun (_ : Fin 1) (_ : Fin 1) => (0 : ℝ)) i j :=
  ⟨⟨fun _ _ => le_refl 0, by norm_num⟩,
   (c2_nndsvd_initialize_nonneg (fun _ _ => (0 : ℝ)) (fun _ _ => 0) (fun _ => 0)
     (fun _ _ => 0) (fun _ _ => le_refl 0) (by norm_num) (by norm_num)).1⟩


/-- Characterization of membership in the shared ambiguous bucket built by the
assignment loop: a row index lands there exactly when its posterior is below
the threshold. -/
theorem assignGo_amb_mem (t : ℚ) :
    ∀ (preds : List (ℤ × ℚ)) (i0 j : ℕ),
      (j ∈ (assignGo t i0 preds).2 ↔
        ∃ n cp, preds.get? n = some cp ∧ j = i0 + n ∧ cp.2 < t) := by
  intro preds
  induction preds with
  | nil => intro i0 j; simp [assignGo]
  | cons hd tl ih =>
    intro i0 j
    obtain ⟨c, p⟩ := hd
    by_cases hp : t ≤ p
    · simp only [assignGo, if_pos hp]
      rw [ih (i0 + 1) j]
      constructor
      · rintro ⟨n, cp, hget, hj, hlt⟩
        exact ⟨n + 1, cp, by simpa using hget, by omega, hlt⟩
      · rintro ⟨n, cp, hget, hj, hlt⟩
        cases n with
        | zero =>
          simp only [List.get?_cons_zero, Option.some.injEq] at hget
          rw [← hget] at hlt
          exact absurd hlt (not_lt.mpr hp)
        | succ n2 => exact ⟨n2, cp, by simpa using hget, by omega, hlt⟩
    · simp only [assignGo, if_neg hp, List.mem_cons]
      rw [ih (i0 + 1) j]
      constructor
      · rintro (rfl | ⟨n, cp, hget, hj, hlt⟩)
        · exact ⟨0, (c, p), rfl, by omega, not_le.mp hp⟩
        · exact ⟨n + 1, cp, by simpa using hget, by omega, hlt⟩
      · rintro ⟨n, cp, hget, hj, hlt⟩
        cases n with
        | zero => left; omega
        | succ n2 => right; exact ⟨n2, cp, by simpa using hget, by omega, hlt⟩

/-- Characterization of membership in the exclusive per-cluster record built by
the assignment loop: a (row, cluster) pair is recorded exactly when the row
reports that cluster with a posterior at least the threshold. -/
theorem assignGo_ex_mem (t : ℚ) :
    ∀ (preds : List (ℤ × ℚ)) (i0 j : ℕ) (cl : ℤ),
      ((j, cl) ∈ (assignGo t i0 preds).1 ↔
        ∃ n cp, preds.get? n = some cp ∧ j = i0 + n ∧ cp.1 = cl ∧ t ≤ cp.2) := by
  intro preds
  induction preds with
  | nil => intro i0 j cl; simp [assignGo]
  | cons hd tl ih =>
    intro i0 j cl
    obtain ⟨c, p⟩ := hd
    by_cases hp : t ≤ p
    · simp only [assignGo, if_pos hp, List.mem_cons]
      rw [ih (i0 + 1) j cl]
      constructor
      · rintro (heq | ⟨n, cp, hget, hj, hc, hle⟩)
        · obtain ⟨h1, h2⟩ := Prod.mk.injEq .. ▸ heq
          exact ⟨0, (c, p), rfl, by omega, by simpa using h2.symm, hp⟩
        · exact ⟨n + 1, cp, by simpa using hget, by omega, hc, hle⟩
      · rintro ⟨n, cp, hget, hj, hc, hle⟩
        cases n with
        | zero =>
          left
          simp only [List.get?_cons_zero, Option.some.injEq] at hget
          rw [← hget] at hc
          simp only [Prod.mk.injEq]
          exact ⟨by omega, hc.symm⟩
        | succ n2 => right; exact ⟨n2, cp, by simpa using hget, by omega, hc, hle⟩
    · simp only [assignGo, if_neg hp]
      rw [ih (i0 + 1) j cl]
      constructor
      · rintro ⟨n, cp, hget, hj, hc, hle⟩
        exact ⟨n + 1, cp, by simpa using hget, by omega, hc, hle⟩
      · rintro ⟨n, cp, hget, hj, hc, hle⟩
        cases n with
        | zero =>
          simp only [List.get?_cons_zero, Option.some.injEq] at hget
          rw [← hget] at hle
          exact absurd hle hp
        | succ n2 => exact ⟨n2, cp, by simpa using hget, by omega, hc, hle⟩

/-- Claim C7: with k the number of distinct cluster ids in the final
factorization output, a variant row is recorded exclusively for its reported
top cluster exactly when its posterior is at least 1/k, and lands in the shared
ambiguous bucket exactly when its posterior is below 1/k; in particular with 3
distinct clusters a posterior of 0.2 routes to the ambiguous bucket while 0.4
routes to its exclusive cluster. -/
theorem c7_posterior_threshold_routing (preds : List (ℤ × ℚ)) (i : ℕ)
    (h : i < preds.length) (hk : 0 < uniqueCount preds) :
    ((i, (preds.get ⟨i, h⟩).1) ∈ (assignRows preds).1 ↔
      1 / (uniqueCount preds : ℚ) ≤ (preds.get ⟨i, h⟩).2) ∧
    (i ∈ (assignRows preds).2 ↔
      (preds.get ⟨i, h⟩).2 < 1 / (uniqueCount preds : ℚ)) ∧
    assignRows [((0 : ℤ), (2 : ℚ)/10), (1, 4/10), (2, 9/10)] = ([(1, 1), (2, 2)], [0]) := by
  have hget : preds.get? i = some (preds.get ⟨i, h⟩) := List.get?_eq_get h
  refine ⟨?_, ?_, ?_⟩
  · rw [assignRows, assignGo_ex_mem]
    constructor
    · rintro ⟨n, cp, hg, hj, hc, hle⟩
      have hn : n = i := by omega
      rw [hn, hget] at hg
      obtain rfl := Option.some.injEq .. ▸ hg
      exact hle
    · intro hle
      exact ⟨i, preds.get ⟨i, h⟩, hget, by omega, rfl, hle⟩
  · rw [assignRows, assignGo_amb_mem]
    constructor
    · rintro ⟨n, cp, hg, hj, hlt⟩
      have hn : n = i := by omega
      rw [hn, hget] at hg
      obtain rfl := Option.some.injEq .. ▸ hg
      exact hlt
    · intro hlt
      exact ⟨i, preds.get ⟨i, h⟩, hget, by omega, hlt⟩
  · have huc : uniqueCount [((0 : ℤ), (2 : ℚ)/10), (1, 4/10), (2, 9/10)] = 3 := rfl
    rw [assignRows, huc]
    norm_num [assignGo]

/-- Witness for c7_posterior_threshold_routing at the three-cluster prediction
list, row 0 (posterior 0.2). -/
theorem c7_posterior_threshold_witness :
    (0 < ([((0 : ℤ), (2 : ℚ)/10), (1, 4/10), (2, 9/10)]).length ∧
      0 < uniqueCount [((0 : ℤ), (2 : ℚ)/10), (1, 4/10), (2, 9/10)]) ∧
    (0 ∈ (assignRows [((0 : ℤ), (2 : ℚ)/10), (1, 4/10), (2, 9/10)]).2 ↔
      (([((0 : ℤ), (2 : ℚ)/10), (1, 4/10), (2, 9/10)]).get ⟨0, by norm_num⟩).2 <
        1 / (uniqueCount [((0 : ℤ), (2 : ℚ)/10), (1, 4/10), (2, 9/10)] : ℚ)) :=
  ⟨⟨by norm_num, by norm_num [uniqueCount]⟩,
   (c7_posterior_threshold_routing [((0 : ℤ), (2 : ℚ)/10), (1, 4/10), (2, 9/10)] 0
     (by norm_num) (by norm_num [uniqueCount])).2.1⟩


/-- Membership characterization of the canonical variant feature list: a tuple
appears exactly when it arises from a table entry whose key does not contain
the character R. -/
theorem mem_variantInfoAll_iff (table : List (ℤ × List (ℤ × List (String × List (ℚ × ℚ)))))
    (x : ℤ × String × (List ℚ × List ℚ) × ℤ) :
    x ∈ variantInfoAll table ↔
      ∃ tc ∈ table, ∃ pv ∈ tc.2, ∃ e ∈ pv.2,
        ¬ 'R' ∈ e.1.data ∧ x = (pv.1, e.1, buildFeature e.2, tc.1) := by
  simp only [variantInfoAll, List.mem_flatMap, List.mem_map, List.mem_filter,
    Bool.not_eq_true', decide_eq_false_iff_not]
  constructor
  · rintro ⟨tc, htc, pv, hpv, e, ⟨he, hnoR⟩, hx⟩
    exact ⟨tc, htc, pv, hpv, e, he, hnoR, hx.symm⟩
  · rintro ⟨tc, htc, pv, hpv, e, he, hnoR, hx⟩
    exact ⟨tc, htc, pv, hpv, e, ⟨he, hnoR⟩, hx.symm⟩

/-- Every tuple of the canonical variant feature list carries a key that does
not contain the character R. -/
theorem variantInfoAll_no_R (table : List (ℤ × List (ℤ × List (String × List (ℚ × ℚ)))))
    (x : ℤ × String × (List ℚ × List ℚ) × ℤ) (hx : x ∈ variantInfoAll table) :
    ¬ 'R' ∈ x.2.1.data := by
  obtain ⟨tc, _, pv, _, e, _, hnoR, heq⟩ := (mem_variantInfoAll_iff table x).mp hx
  rw [heq]
  exact hnoR

/-- Claim C8: under the spec-modelled VariantKey alphabet (nucleotide strings
over A, C, G, T, N plus the reference placeholder "R"), the canonical variant
feature list built by generate_distances contains the tuple of every (contig,
position, variant) table entry whose key is not the reference placeholder, and
only reference-placeholder entries are excluded. -/
theorem c8_feature_list_excludes_only_placeholder
    (table : List (ℤ × List (ℤ × List (String × List (ℚ × ℚ)))))
    (hleg : ∀ tc ∈ table, ∀ pv ∈ tc.2, ∀ e ∈ pv.2, specVariantKey e.1) :
    ∀ tc ∈ table, ∀ pv ∈ tc.2, ∀ e ∈ pv.2,
      ((pv.1, e.1, buildFeature e.2, tc.1) ∈ variantInfoAll table ↔
        e.1 ≠ refPlaceholder) := by
  intro tc htc pv hpv e he
  constructor
  · intro hmem heq
    have hnoR := variantInfoAll_no_R table _ hmem
    simp only [heq] at hnoR
    exact hnoR (by decide)
  · intro hne
    have hnoR : ¬ 'R' ∈ e.1.data := by
      rcases hleg tc htc pv hpv e he with hra | halpha
      · exact absurd hra hne
      · intro hin
        rcases halpha 'R' hin with h | h | h | h | h <;> exact absurd h (by decide)
    exact (mem_variantInfoAll_iff table _).mpr ⟨tc, htc, pv, hpv, e, he, hnoR, rfl⟩

/-- Witness for c8_feature_list_excludes_only_placeholder at the concrete table
holding keys "A" and "R" at one position. -/
theorem c8_feature_list_witness :
    (∀ tc ∈ c8Table, ∀ pv ∈ tc.2, ∀ e ∈ pv.2, specVariantKey e.1) ∧
    ((((10 : ℤ), "A", buildFeature [((5 : ℚ), 10)], (0 : ℤ)) ∈ variantInfoAll c8Table) ↔
      "A" ≠ refPlaceholder) := by
  have hleg : ∀ tc ∈ c8Table, ∀ pv ∈ tc.2, ∀ e ∈ pv.2, specVariantKey e.1 := by
    intro tc htc pv hpv e he
    simp only [c8Table, List.mem_singleton] at htc
    subst htc
    simp only [List.mem_singleton] at hpv
    subst hpv
    simp only [List.mem_cons, List.not_mem_nil, or_false] at he
    rcases he with rfl | rfl
    · right; intro c hc; simp at hc; subst hc; left; rfl
    · left; rfl
  refine ⟨hleg, ?_⟩
  have := c8_feature_list_excludes_only_placeholder c8Table hleg
    (0, [(10, [("A", [(5, 10)]), ("R", [(6, 10)])])]) (by simp [c8Table])
    (10, [("A", [(5, 10)]), ("R", [(6, 10)])]) (by simp)
    ("A", [(5, 10)]) (by simp)
  simpa using this


/-- Lookup after an entry/or_insert update: the updated key holds the updated
value, every other key is untouched. -/
theorem mfind_updAssoc {κ α : Type} [DecidableEq κ] (m : List (κ × α)) (k k2 : κ)
    (d : α) (f : α → α) :
    mfind (updAssoc m k d f) k2 =
      if k = k2 then some (f ((mfind m k).getD d)) else mfind m k2 := by
  induction m with
  | nil => simp [updAssoc, mfind]
  | cons hd tl ih =>
    obtain ⟨k0, v⟩ := hd
    by_cases h0 : k0 = k
    · subst h0
      simp only [updAssoc, if_pos rfl, mfind]
      by_cases h2 : k0 = k2
      · simp [h2, mfind]
      · simp [h2, mfind]
    · simp only [updAssoc, if_neg h0, mfind]
      by_cases h2 : k0 = k2
      · have hkk : ¬ k = k2 := fun hh => h0 (h2.trans hh.symm)
        simp [h2, hkk]
      · simp [h2, ih, mfind, h0]

/-- Lookup misses every key absent from the key list. -/
theorem mfind_eq_none {κ α : Type} [DecidableEq κ] (m : List (κ × α)) (k : κ)
    (h : k ∉ m.map Prod.fst) : mfind m k = none := by
  induction m with
  | nil => rfl
  | cons hd tl ih =>
    simp only [List.map_cons, List.mem_cons, not_or] at h
    have hne : ¬ hd.1 = k := fun hh => h.1 hh.symm
    obtain ⟨k0, v⟩ := hd
    simp only [mfind, if_neg hne]
    exact ih h.2

/-- Successful lookup produces a binding of the list. -/
theorem mfind_mem {κ α : Type} [DecidableEq κ] (m : List (κ × α)) (k : κ) (v : α)
    (h : mfind m k = some v) : (k, v) ∈ m := by
  induction m with
  | nil => simp [mfind] at h
  | cons hd tl ih =>
    obtain ⟨k0, v0⟩ := hd
    by_cases h0 : k0 = k
    · subst h0
      simp [mfind] at h
      subst h
      exact List.mem_cons_self _ _
    · simp only [mfind, if_neg h0] at h
      exact List.mem_cons_of_mem _ (ih h)

/-- Lookup through the entry-update fold that add_contig uses to merge an
incoming unique-key map into a stored one: keys present in the incoming map
hold the merged value, other keys are untouched. -/
theorem foldl_updAssoc_mfind {κ α β : Type} [DecidableEq κ] (g : α → β → α) (d : α) :
    ∀ (n : List (κ × β)) (b : List (κ × α)) (k : κ), (n.map Prod.fst).Nodup →
      mfind (n.foldl (fun acc e => updAssoc acc e.1 d (fun v => g v e.2)) b) k =
        match mfind n k with
        | some s => some (g ((mfind b k).getD d) s)
        | none => mfind b k := by
  intro n
  induction n with
  | nil => intro b k _; simp [mfind]
  | cons hd tl ih =>
    intro b k hnd
    obtain ⟨k0, s0⟩ := hd
    simp only [List.map_cons, List.nodup_cons] at hnd
    simp only [List.foldl_cons]
    rw [ih (updAssoc b k0 d (fun v => g v s0)) k hnd.2]
    by_cases hk : k0 = k
    · subst hk
      have htl : mfind tl k0 = none := mfind_eq_none _ _ hnd.1
      rw [htl]
      simp [mfind_updAssoc, mfind]
    · have hupd : mfind (updAssoc b k0 d (fun v => g v s0)) k = mfind b k := by
        rw [mfind_updAssoc]
        exact if_neg hk
      rw [hupd]
      simp only [mfind, if_neg hk]

/-- Entry updates never empty the list. -/
theorem updAssoc_ne_nil {κ α : Type} [DecidableEq κ] (m : List (κ × α)) (k : κ)
    (d : α) (f : α → α) : updAssoc m k d f ≠ [] := by
  cases m with
  | nil => simp [updAssoc]
  | cons hd tl =>
    obtain ⟨k0, v⟩ := hd
    simp only [updAssoc]
    split <;> simp

/-- The entry-update fold preserves nonemptiness of the stored map. -/
theorem foldl_updAssoc_ne_nil {κ α β : Type} [DecidableEq κ] (g : α → β → α) (d : α) :
    ∀ (n : List (κ × β)) (b : List (κ × α)), b ≠ [] →
      n.foldl (fun acc e => updAssoc acc e.1 d (fun v => g v e.2)) b ≠ [] := by
  intro n
  induction n with
  | nil => intro b hb; simpa
  | cons hd tl ih =>
    intro b _
    simp only [List.foldl_cons]
    exact ih _ (updAssoc_ne_nil _ _ _ _)

/-- Merging a read-support set into itself is the identity. -/
theorem mergeSet_self (s : ReadSet) : mergeSet s s = s := by
  unfold mergeSet
  split_ifs
  · rfl
  · exact Finset.union_self s

/-- Merging the same read-support set twice equals merging it once. -/
theorem mergeSet_idem (v s : ReadSet) : mergeSet (mergeSet v s) s = mergeSet v s := by
  by_cases hv : v = ∅
  · rw [hv]
    have h1 : mergeSet ∅ s = s := if_pos rfl
    rw [h1]
    exact mergeSet_self s
  · have h1 : mergeSet v s = v ∪ s := if_neg hv
    rw [h1]
    have h2 : v ∪ s ≠ ∅ := fun hh => hv (Finset.union_eq_empty.mp hh).1
    rw [mergeSet, if_neg h2, Finset.union_assoc, Finset.union_self]

/-- Lookup through the per-position inner merge loop of add_contig. -/
theorem innerMerge_mfind {κ : Type} [DecidableEq κ] (b n : InnerMap κ) (k : κ)
    (hnd : (n.map Prod.fst).Nodup) :
    mfind (innerMerge b n) k =
      match mfind n k with
      | some s => some (mergeSet ((mfind b k).getD ∅) s)
      | none => mfind b k := by
  unfold innerMerge
  rw [foldl_updAssoc_mfind mergeSet ∅ n b k hnd]
  cases mfind n k <;> rfl

/-- The inner merge of a nonempty stored map stays nonempty. -/
theorem innerMerge_ne_nil {κ : Type} [DecidableEq κ] (b n : InnerMap κ) (hb : b ≠ []) :
    innerMerge b n ≠ [] := by
  unfold innerMerge
  exact foldl_updAssoc_ne_nil mergeSet ∅ n b hb

/-- Re-merging the same incoming per-position BTreeMap leaves every read-support
set unchanged. -/
theorem posEntryMerge_idem {κ : Type} [DecidableEq κ] (v im : InnerMap κ) (k : κ)
    (hnd : (im.map Prod.fst).Nodup) :
    mfind (posEntryMerge (posEntryMerge v im) im) k = mfind (posEntryMerge v im) k := by
  by_cases hv : v.isEmpty
  · have hpe : posEntryMerge v im = im := by rw [posEntryMerge, if_pos hv]
    rw [hpe]
    by_cases him : im.isEmpty
    · have hpe2 : posEntryMerge im im = im := by rw [posEntryMerge, if_pos him]
      rw [hpe2]
    · have hpe2 : posEntryMerge im im = innerMerge im im := by
        rw [posEntryMerge, if_neg him]
      rw [hpe2, innerMerge_mfind _ _ _ hnd]
      cases hm : mfind im k with
      | none => simp [hm]
      | some s => simp [hm, mergeSet_self]
  · have hpe : posEntryMerge v im = innerMerge v im := by rw [posEntryMerge, if_neg hv]
    rw [hpe]
    have hvne : v ≠ [] := by
      intro hh
      rw [hh] at hv
      exact hv rfl
    have hM : innerMerge v im ≠ [] := innerMerge_ne_nil _ _ hvne
    have hMe : ¬ (innerMerge v im).isEmpty := fun hh => hM (List.isEmpty_iff.mp hh)
    have hpe2 : posEntryMerge (innerMerge v im) im = innerMerge (innerMerge v im) im := by
      rw [posEntryMerge, if_neg hMe]
    rw [hpe2]
    have hInner := innerMerge_mfind v im k hnd
    rw [innerMerge_mfind _ _ _ hnd]
    cases hm : mfind im k with
    | none => simp [hm]
    | some s =>
      rw [hm] at hInner
      simp only [hm, hInner, Option.getD_some]
      rw [mergeSet_idem]

/-- Re-merging the same incoming positional map leaves every (position, key)
read-support set unchanged. -/
theorem posMerge_idem {κ : Type} [DecidableEq κ] (b n : PosMap κ) (p : ℤ) (k : κ)
    (hn1 : (n.map Prod.fst).Nodup) (hn2 : ∀ e ∈ n, (e.2.map Prod.fst).Nodup) :
    lookupSet (posMerge (posMerge b n) n) p k = lookupSet (posMerge b n) p k := by
  by_cases hb : b.isEmpty
  · have h1 : posMerge b n = n := by rw [posMerge, if_pos hb]
    rw [h1]
    by_cases hn : n.isEmpty
    · have h2 : posMerge n n = n := by rw [posMerge, if_pos hn]
      rw [h2]
    · have h2 : posMerge n n =
          n.foldl (fun acc e => updAssoc acc e.1 [] (fun v => posEntryMerge v e.2)) n := by
        rw [posMerge, if_neg hn]
      rw [h2]
      unfold lookupSet
      rw [foldl_updAssoc_mfind posEntryMerge [] n n p hn1]
      cases hm : mfind n p with
      | none => simp [hm]
      | some im =>
        simp only [hm, Option.getD_some]
        have him : (im.map Prod.fst).Nodup := hn2 _ (mfind_mem _ _ _ hm)
        have h0 : posEntryMerge ([] : InnerMap κ) im = im := rfl
        have hidem := posEntryMerge_idem ([] : InnerMap κ) im k him
        rw [h0] at hidem
        exact hidem
  · have hbne : b ≠ [] := by
      intro hh
      rw [hh] at hb
      exact hb rfl
    have hF : posMerge b n =
        n.foldl (fun acc e => updAssoc acc e.1 [] (fun v => posEntryMerge v e.2)) b := by
      rw [posMerge, if_neg hb]
    have hFne : posMerge b n ≠ [] := by
      rw [hF]
      exact foldl_updAssoc_ne_nil _ _ _ _ hbne
    have hFe : ¬ (posMerge b n).isEmpty := fun hh => hFne (List.isEmpty_iff.mp hh)
    have h2 : posMerge (posMerge b n) n =
        n.foldl (fun acc e => updAssoc acc e.1 [] (fun v => posEntryMerge v e.2))
          (posMerge b n) := by
      rw [posMerge, if_neg hFe]
    rw [h2]
    unfold lookupSet
    rw [foldl_updAssoc_mfind posEntryMerge [] n (posMerge b n) p hn1]
    cases hm : mfind n p with
    | none => simp [hm]
    | some im =>
      have him : (im.map Prod.fst).Nodup := hn2 _ (mfind_mem _ _ _ hm)
      have hFp : mfind (posMerge b n) p =
          some (posEntryMerge ((mfind b p).getD []) im) := by
        rw [hF, foldl_updAssoc_mfind posEntryMerge [] n b p hn1, hm]
      simp only [hm, hFp, Option.getD_some]
      exact posEntryMerge_idem _ im k him

/-- Writing a sample's scalar slot twice leaves the second value. -/
theorem updScalarVec_twice (m : List (ℤ × List ℚ)) (tid : ℤ) (sc si : ℕ) (x y : ℚ)
    (hsi : si < sc) (hlen : ∀ v, mfind m tid = some v → si < v.length) :
    ∃ v, mfind (updScalarVec (updScalarVec m tid sc si x) tid sc si y) tid = some v ∧
      v.get? si = some y := by
  have h1 : mfind (updScalarVec m tid sc si x) tid =
      some (((mfind m tid).getD (List.replicate sc 0)).set si x) := by
    rw [updScalarVec, mfind_updAssoc, if_pos rfl]
  have hlen1 : si < (((mfind m tid).getD (List.replicate sc 0)).set si x).length := by
    rw [List.length_set]
    cases hm : mfind m tid with
    | none => simpa using hsi
    | some v => simpa using hlen v hm
  refine ⟨(((mfind m tid).getD (List.replicate sc 0)).set si x).set si y, ?_, ?_⟩
  · rw [updScalarVec, mfind_updAssoc, if_pos rfl, h1]
    simp
  · have hlen0 : si < ((mfind m tid).getD (List.replicate sc 0)).length := by
      rw [List.length_set] at hlen1
      exact hlen1
    simp [List.getElem?_set_self', List.getElem?_eq_getElem hlen0]


/-- Lookup of a (position, key) read-support set after the contig-level entry
update add_contig performs on snps_map/indels_map. -/
theorem lookupSet3_updAssoc_merge {κ : Type} [DecidableEq κ] (X : List (ℤ × PosMap κ))
    (tid : ℤ) (nmap : PosMap κ) (p : ℤ) (k : κ) :
    lookupSet3 (updAssoc X tid [] (fun b => posMerge b nmap)) tid p k =
      lookupSet (posMerge ((mfind X tid).getD []) nmap) p k := by
  unfold lookupSet3
  rw [mfind_updAssoc, if_pos rfl]

/-- Claim C10: for a fixed (contig, sample), a second add_contig call with the
same statistics leaves every SNP and indel positional read-support set equal to
the single-call result (set-union idempotence), while a second call with
different coverage, variance and mean-genotype scalars replaces that sample's
scalar slots with the new values (overwrite semantics). -/
theorem c10_addContig_idem_and_overwrite (m : PMatrix) (st st2 : PileupStatsIn)
    (sc si : ℕ) (htid : st2.tid = st.tid)
    (hi1 : (st.indels.map Prod.fst).Nodup)
    (hi2 : ∀ e ∈ st.indels, (e.2.map Prod.fst).Nodup)
    (hs1 : (st.nucfrequency.map Prod.fst).Nodup)
    (hs2 : ∀ e ∈ st.nucfrequency, (e.2.map Prod.fst).Nodup)
    (hsi : si < sc)
    (hcov : ∀ v, mfind m.coverages st.tid = some v → si < v.length)
    (hvar : ∀ v, mfind m.variances st.tid = some v → si < v.length)
    (hgen : ∀ v, mfind m.averageGenotypes st.tid = some v → si < v.length) :
    (∀ p k, lookupSet3 (addContig (addContig m st sc si) st sc si).indelsMap st.tid p k =
        lookupSet3 (addContig m st sc si).indelsMap st.tid p k) ∧
    (∀ p k, lookupSet3 (addContig (addContig m st sc si) st sc si).snpsMap st.tid p k =
        lookupSet3 (addContig m st sc si).snpsMap st.tid p k) ∧
    (∃ v, mfind (addContig (addContig m st sc si) st2 sc si).coverages st.tid = some v ∧
        v.get? si = some st2.coverage) ∧
    (∃ v, mfind (addContig (addContig m st sc si) st2 sc si).variances st.tid = some v ∧
        v.get? si = some st2.variance) ∧
    (∃ v, mfind (addContig (addContig m st sc si) st2 sc si).averageGenotypes st.tid =
        some v ∧ v.get? si = some st2.meanGenotypes) := by
  refine ⟨?_, ?_, ?_, ?_, ?_⟩
  · intro p k
    have e1 : (addContig m st sc si).indelsMap =
        updAssoc m.indelsMap st.tid [] (fun b => posMerge b st.indels) := rfl
    have e2 : (addContig (addContig m st sc si) st sc si).indelsMap =
        updAssoc (updAssoc m.indelsMap st.tid [] (fun b => posMerge b st.indels))
          st.tid [] (fun b => posMerge b st.indels) := rfl
    rw [e1, e2, lookupSet3_updAssoc_merge, lookupSet3_updAssoc_merge,
      mfind_updAssoc, if_pos rfl, Option.getD_some]
    exact posMerge_idem _ _ p k hi1 hi2
  · intro p k
    have e1 : (addContig m st sc si).snpsMap =
        updAssoc m.snpsMap st.tid [] (fun b => posMerge b st.nucfrequency) := rfl
    have e2 : (addContig (addContig m st sc si) st sc si).snpsMap =
        updAssoc (updAssoc m.snpsMap st.tid [] (fun b => posMerge b st.nucfrequency))
          st.tid [] (fun b => posMerge b st.nucfrequency) := rfl
    rw [e1, e2, lookupSet3_updAssoc_merge, lookupSet3_updAssoc_merge,
      mfind_updAssoc, if_pos rfl, Option.getD_some]
    exact posMerge_idem _ _ p k hs1 hs2
  · have e2 : (addContig (addContig m st sc si) st2 sc si).coverages =
        updScalarVec (updScalarVec m.coverages st.tid sc si st.coverage)
          st2.tid sc si st2.coverage := rfl
    rw [e2, htid]
    exact updScalarVec_twice m.coverages st.tid sc si st.coverage st2.coverage hsi hcov
  · have e2 : (addContig (addContig m st sc si) st2 sc si).variances =
        updScalarVec (updScalarVec m.variances st.tid sc si st.variance)
          st2.tid sc si st2.variance := rfl
    rw [e2, htid]
    exact updScalarVec_twice m.variances st.tid sc si st.variance st2.variance hsi hvar
  · have e2 : (addContig (addContig m st sc si) st2 sc si).averageGenotypes =
        updScalarVec (updScalarVec m.averageGenotypes st.tid sc si st.meanGenotypes)
          st2.tid sc si st2.meanGenotypes := rfl
    rw [e2, htid]
    exact updScalarVec_twice m.averageGenotypes st.tid sc si st.meanGenotypes
      st2.meanGenotypes hsi hgen

/-- Witness for c10_addContig_idem_and_overwrite: the empty matrix, one sample,
statistics c10Stats repeated (idempotent sets) and c10Stats2 with new scalars
(overwritten coverage slot). -/
theorem c10_addContig_witness :
    (c10Stats2.tid = c10Stats.tid ∧
      (c10Stats.indels.map Prod.fst).Nodup ∧
      (∀ e ∈ c10Stats.indels, (e.2.map Prod.fst).Nodup) ∧
      (c10Stats.nucfrequency.map Prod.fst).Nodup ∧
      (∀ e ∈ c10Stats.nucfrequency, (e.2.map Prod.fst).Nodup) ∧
      (0 : ℕ) < 1 ∧
      (∀ v, mfind newMatrix.coverages c10Stats.tid = some v → 0 < v.length) ∧
      (∀ v, mfind newMatrix.variances c10Stats.tid = some v → 0 < v.length) ∧
      (∀ v, mfind newMatrix.averageGenotypes c10Stats.tid = some v → 0 < v.length)) ∧
    (lookupSet3 (addContig (addContig newMatrix c10Stats 1 0) c10Stats 1 0).indelsMap
        c10Stats.tid 4 "AT" =
      lookupSet3 (addContig newMatrix c10Stats 1 0).indelsMap c10Stats.tid 4 "AT") ∧
    (∃ v, mfind (addContig (addContig newMatrix c10Stats 1 0) c10Stats2 1 0).coverages
        c10Stats.tid = some v ∧ v.get? 0 = some c10Stats2.coverage) := by
  have h1 : c10Stats2.tid = c10Stats.tid := rfl
  have h2 : (c10Stats.indels.map Prod.fst).Nodup := by simp [c10Stats]
  have h3 : ∀ e ∈ c10Stats.indels, (e.2.map Prod.fst).Nodup := by
    intro e he
    simp only [c10Stats, List.mem_singleton] at he
    subst he
    simp
  have h4 : (c10Stats.nucfrequency.map Prod.fst).Nodup := by simp [c10Stats]
  have h5 : ∀ e ∈ c10Stats.nucfrequency, (e.2.map Prod.fst).Nodup := by
    intro e he
    simp only [c10Stats, List.mem_singleton] at he
    subst he
    simp
  have h6 : (0 : ℕ) < 1 := by norm_num
  have h7 : ∀ v, mfind newMatrix.coverages c10Stats.tid = some v → 0 < v.length := by
    intro v hv
    simp [newMatrix, mfind] at hv
  have h8 : ∀ v, mfind newMatrix.variances c10Stats.tid = some v → 0 < v.length := by
    intro v hv
    simp [newMatrix, mfind] at hv
  have h9 : ∀ v, mfind newMatrix.averageGenotypes c10Stats.tid = some v → 0 < v.length := by
    intro v hv
    simp [newMatrix, mfind] at hv
  have hmain := c10_addContig_idem_and_overwrite newMatrix c10Stats c10Stats2 1 0
    h1 h2 h3 h4 h5 h6 h7 h8 h9
  exact ⟨⟨h1, h2, h3, h4, h5, h6, h7, h8, h9⟩, hmain.1 4 "AT", hmain.2.2.1⟩

end Lorikeet
